import Mathlib

/-!
# FunCache: a verification development

A shallow embedding of the FunCache memoization framework
(`funcache/_cache.py`, `funcache/_memory_cache.py`, `funcache/_file_cache.py`)
together with theorems about its key derivation, engine behaviour, eviction
and persistence logic.
-/

namespace FunCache

/-! ## Python value model for `Cache.get_args_key`

`Cache.get_args_key` (src/funcache/_cache.py, lines 95-105) recurses over
`collections.Iterable` arguments.  We model the Python values that can occur
as arguments: scalars (`int`, `bool`, `None`), strings (lists of characters),
lists and tuples.  In Python, `str`, `list` and `tuple` are all `Iterable`;
iterating over a string yields its characters as one-character strings. -/

inductive PyVal : Type where
  | int : Int → PyVal
  | bool : Bool → PyVal
  | pynone : PyVal
  | str : List Char → PyVal
  | list : List PyVal → PyVal
  | tuple : List PyVal → PyVal

/-- The element sequence obtained by iterating over a Python value
(`for arg in args`), or `Option.none` when the value is not a
`collections.Iterable`.  Iterating a string yields one-character strings. -/
def iterElems : PyVal → Option (List PyVal)
  | PyVal.str s => Option.some (s.map fun c => PyVal.str [c])
  | PyVal.list xs => Option.some xs
  | PyVal.tuple xs => Option.some xs
  | _ => Option.none

/-- Apply `f` to every element of a list, succeeding only when every
application succeeds (the list comprehension
`[Cache.get_args_key(arg) for arg in args]`, which diverges as soon as one
recursive call diverges). -/
def mapKeys (f : PyVal → Option PyVal) : List PyVal → Option (List PyVal)
  | [] => Option.some []
  | x :: xs =>
    match f x, mapKeys f xs with
    | Option.some y, Option.some ys => Option.some (y :: ys)
    | _, _ => Option.none

/-- `Cache.get_args_key` (src/funcache/_cache.py, lines 95-105):

```
if isinstance(args, collections.Iterable):
    args = tuple([Cache.get_args_key(arg) for arg in args])
return args
```

The Python recursion has no termination guarantee (a one-character string
iterates to itself), so it is embedded with explicit fuel bounding the
recursion depth; `Option.none` means the recursion did not finish within the
given depth. -/
def get_args_key : Nat → PyVal → Option PyVal
  | 0, _ => Option.none
  | fuel + 1, v =>
    match iterElems v with
    | Option.some elems => (mapKeys (get_args_key fuel) elems).map PyVal.tuple
    | Option.none => Option.some v

mutual

/-- Structural equality of argument values: scalars and strings compare by
value, while sequences (lists and tuples alike) compare element-wise in
order.  This captures the spec's "structurally equal (including nested
sequences)" arguments. -/
def structEq : PyVal → PyVal → Bool
  | PyVal.int a, PyVal.int b => a == b
  | PyVal.bool a, PyVal.bool b => a == b
  | PyVal.pynone, PyVal.pynone => true
  | PyVal.str a, PyVal.str b => a == b
  | PyVal.list xs, PyVal.list ys => structEqList xs ys
  | PyVal.list xs, PyVal.tuple ys => structEqList xs ys
  | PyVal.tuple xs, PyVal.list ys => structEqList xs ys
  | PyVal.tuple xs, PyVal.tuple ys => structEqList xs ys
  | _, _ => false

/-- Element-wise structural equality of two sequences. -/
def structEqList : List PyVal → List PyVal → Bool
  | [], [] => true
  | x :: xs, y :: ys => structEq x y && structEqList xs ys
  | _, _ => false

end

mutual

/-- A value is string-free when no string occurs anywhere inside it. -/
def stringFree : PyVal → Bool
  | PyVal.str _ => false
  | PyVal.list xs => stringFreeList xs
  | PyVal.tuple xs => stringFreeList xs
  | _ => true

/-- Every element of the list is string-free. -/
def stringFreeList : List PyVal → Bool
  | [] => true
  | x :: xs => stringFree x && stringFreeList xs

end

mutual

/-- A value is or contains a non-empty string. -/
def hasNonemptyStr : PyVal → Bool
  | PyVal.str s => !s.isEmpty
  | PyVal.list xs => hasNonemptyStrList xs
  | PyVal.tuple xs => hasNonemptyStrList xs
  | _ => false

/-- Some element of the list is or contains a non-empty string. -/
def hasNonemptyStrList : List PyVal → Bool
  | [] => false
  | x :: xs => hasNonemptyStr x || hasNonemptyStrList xs

end

mutual

/-- Recursion-depth measure of a value: enough fuel for `get_args_key` to
finish on string-free values. -/
def psize : PyVal → Nat
  | PyVal.list xs => psizeList xs + 1
  | PyVal.tuple xs => psizeList xs + 1
  | _ => 1

/-- Maximum measure over a list of values. -/
def psizeList : List PyVal → Nat
  | [] => 0
  | x :: xs => max (psize x) (psizeList xs)

end

/-! ### Lemmas about `get_args_key` -/

mutual

theorem structEq_refl : ∀ a : PyVal, structEq a a = true
  | PyVal.int a => by simp [structEq]
  | PyVal.bool a => by simp [structEq]
  | PyVal.pynone => by simp [structEq]
  | PyVal.str s => by simp [structEq]
  | PyVal.list xs => by simp [structEq]; exact structEqList_refl xs
  | PyVal.tuple xs => by simp [structEq]; exact structEqList_refl xs

theorem structEqList_refl : ∀ xs : List PyVal, structEqList xs xs = true
  | [] => by simp [structEqList]
  | x :: xs => by simp [structEqList]; exact ⟨structEq_refl x, structEqList_refl xs⟩

end

/-- Structurally equal non-iterable values are equal. -/
theorem structEq_eq_of_not_iterable : ∀ a b : PyVal, iterElems a = Option.none →
    structEq a b = true → a = b := by
  intro a b ha hab
  cases a <;> cases b <;> simp_all [iterElems, structEq]

/-- An iterable value is structurally equal only to iterables with
element-wise structurally equal element sequences. -/
theorem structEq_iterable : ∀ a b : PyVal, ∀ xs : List PyVal, structEq a b = true →
    iterElems a = Option.some xs →
    ∃ ys, iterElems b = Option.some ys ∧ structEqList xs ys = true := by
  intro a b xs hab ha
  cases a <;> cases b <;> simp_all [iterElems, structEq]
  exact structEqList_refl _

/-- `mapKeys` respects any function that respects structural equality. -/
theorem mapKeys_congr (f : PyVal → Option PyVal)
    (hf : ∀ a b : PyVal, structEq a b = true → f a = f b) :
    ∀ xs ys : List PyVal, structEqList xs ys = true → mapKeys f xs = mapKeys f ys := by
  intro xs
  induction xs with
  | nil =>
    intro ys h
    cases ys with
    | nil => rfl
    | cons y ys => simp [structEqList] at h
  | cons x xs ih =>
    intro ys h
    cases ys with
    | nil => simp [structEqList] at h
    | cons y ys =>
      simp only [structEqList, Bool.and_eq_true] at h
      simp only [mapKeys, hf x y h.1, ih ys h.2]

/-- `get_args_key` yields equal keys on structurally equal values, at every
recursion depth. -/
theorem get_args_key_congr : ∀ (n : Nat) (a b : PyVal), structEq a b = true →
    get_args_key n a = get_args_key n b := by
  intro n
  induction n with
  | zero => intro a b _; rfl
  | succ n ih =>
    intro a b hab
    cases ha : iterElems a with
    | none =>
      obtain rfl := structEq_eq_of_not_iterable a b ha hab
      rfl
    | some xs =>
      obtain ⟨ys, hb, hxy⟩ := structEq_iterable a b xs hab ha
      simp only [get_args_key, ha, hb, mapKeys_congr (get_args_key n) ih xs ys hxy]

/-- If one element's key derivation fails, the whole list's fails. -/
theorem mapKeys_eq_none_of_mem (f : PyVal → Option PyVal) :
    ∀ (xs : List PyVal) (x : PyVal), x ∈ xs → f x = Option.none →
      mapKeys f xs = Option.none := by
  intro xs
  induction xs with
  | nil => intro x hx; cases hx
  | cons a as ih =>
    intro x hx hfx
    rcases List.mem_cons.mp hx with rfl | hx
    · simp [mapKeys, hfx]
    · rw [mapKeys, ih x hx hfx]
      cases f a <;> rfl

/-- If every element's key derivation succeeds, the whole list's succeeds. -/
theorem mapKeys_isSome (f : PyVal → Option PyVal) :
    ∀ xs : List PyVal, (∀ x ∈ xs, (f x).isSome = true) →
      (mapKeys f xs).isSome = true := by
  intro xs
  induction xs with
  | nil => intro _; rfl
  | cons a as ih =>
    intro h
    obtain ⟨y, hy⟩ := Option.isSome_iff_exists.mp (h a (List.mem_cons_self a as))
    obtain ⟨ys, hys⟩ := Option.isSome_iff_exists.mp
      (ih fun x hx => h x (List.mem_cons_of_mem a hx))
    simp [mapKeys, hy, hys]

/-- A list containing a non-empty string has a witnessing element. -/
theorem hasNonemptyStrList_exists : ∀ xs : List PyVal, hasNonemptyStrList xs = true →
    ∃ x, x ∈ xs ∧ hasNonemptyStr x = true := by
  intro xs
  induction xs with
  | nil => intro h; simp [hasNonemptyStrList] at h
  | cons a as ih =>
    intro h
    simp only [hasNonemptyStrList, Bool.or_eq_true] at h
    rcases h with h | h
    · exact ⟨a, List.mem_cons_self a as, h⟩
    · obtain ⟨x, hx, hsx⟩ := ih h
      exact ⟨x, List.mem_cons_of_mem a hx, hsx⟩

/-- On a value containing a non-empty string, `get_args_key` fails at every
recursion depth: the recursion never terminates. -/
theorem get_args_key_diverges : ∀ (n : Nat) (v : PyVal), hasNonemptyStr v = true →
    get_args_key n v = Option.none := by
  intro n
  induction n with
  | zero => intro v _; rfl
  | succ n ih =>
    intro v hv
    cases v with
    | int a => simp [hasNonemptyStr] at hv
    | bool a => simp [hasNonemptyStr] at hv
    | pynone => simp [hasNonemptyStr] at hv
    | str s =>
      cases s with
      | nil => simp [hasNonemptyStr] at hv
      | cons c cs =>
        have h1 : get_args_key n (PyVal.str [c]) = Option.none :=
          ih (PyVal.str [c]) (by simp [hasNonemptyStr])
        have hmem : PyVal.str [c] ∈ (c :: cs).map fun c' => PyVal.str [c'] :=
          List.mem_map_of_mem _ (List.mem_cons_self c cs)
        have h2 := mapKeys_eq_none_of_mem (get_args_key n) _ _ hmem h1
        simp only [get_args_key, iterElems, h2, Option.map_none']
    | list xs =>
      obtain ⟨x, hx, hsx⟩ := hasNonemptyStrList_exists xs (by simpa [hasNonemptyStr] using hv)
      simp [get_args_key, iterElems,
        mapKeys_eq_none_of_mem (get_args_key n) _ _ hx (ih x hsx)]
    | tuple xs =>
      obtain ⟨x, hx, hsx⟩ := hasNonemptyStrList_exists xs (by simpa [hasNonemptyStr] using hv)
      simp [get_args_key, iterElems,
        mapKeys_eq_none_of_mem (get_args_key n) _ _ hx (ih x hsx)]

/-- Membership bound for the recursion measure. -/
theorem psizeList_mem : ∀ (xs : List PyVal) (x : PyVal), x ∈ xs → psize x ≤ psizeList xs := by
  intro xs
  induction xs with
  | nil => intro x hx; cases hx
  | cons a as ih =>
    intro x hx
    rcases List.mem_cons.mp hx with rfl | hx
    · simp [psizeList]
    · simp only [psizeList]
      exact le_trans (ih x hx) (le_max_right _ _)

/-- String-free lists are element-wise string-free. -/
theorem stringFreeList_mem : ∀ (xs : List PyVal) (x : PyVal), stringFreeList xs = true →
    x ∈ xs → stringFree x = true := by
  intro xs
  induction xs with
  | nil => intro x _ hx; cases hx
  | cons a as ih =>
    intro x h hx
    simp only [stringFreeList, Bool.and_eq_true] at h
    rcases List.mem_cons.mp hx with rfl | hx
    · exact h.1
    · exact ih x h.2 hx

/-- On a string-free value, `get_args_key` succeeds given recursion depth at
least `psize`. -/
theorem get_args_key_terminates : ∀ (n : Nat) (v : PyVal), stringFree v = true →
    psize v ≤ n → (get_args_key n v).isSome = true := by
  intro n
  induction n with
  | zero => intro v _ h; cases v <;> simp [psize] at h
  | succ n ih =>
    intro v hsf hle
    cases v with
    | int a => simp [get_args_key, iterElems]
    | bool a => simp [get_args_key, iterElems]
    | pynone => simp [get_args_key, iterElems]
    | str s => simp [stringFree] at hsf
    | list xs =>
      have hsome : (mapKeys (get_args_key n) xs).isSome = true := by
        apply mapKeys_isSome
        intro x hx
        apply ih x (stringFreeList_mem xs x (by simpa [stringFree] using hsf) hx)
        have h1 := psizeList_mem xs x hx
        have h2 : psizeList xs + 1 ≤ n + 1 := by simpa [psize] using hle
        omega
      obtain ⟨ys, hys⟩ := Option.isSome_iff_exists.mp hsome
      simp [get_args_key, iterElems, hys]
    | tuple xs =>
      have hsome : (mapKeys (get_args_key n) xs).isSome = true := by
        apply mapKeys_isSome
        intro x hx
        apply ih x (stringFreeList_mem xs x (by simpa [stringFree] using hsf) hx)
        have h1 := psizeList_mem xs x hx
        have h2 : psizeList xs + 1 ≤ n + 1 := by simpa [psize] using hle
        omega
      obtain ⟨ys, hys⟩ := Option.isSome_iff_exists.mp hsome
      simp [get_args_key, iterElems, hys]

/-- **C3**: For every pair of structurally equal argument tuples (including
nested sequences), key derivation yields equal cache keys: `get_args_key`
converts every iterable element-wise into an equally-ordered tuple
(recursively, preserving element order) and passes every scalar
(non-iterable) argument through unchanged. -/
theorem C3_key_derivation_structural :
    (∀ a b : PyVal, structEq a b = true →
      ∀ n : Nat, get_args_key n a = get_args_key n b) ∧
    (∀ v : PyVal, iterElems v = Option.none →
      ∀ n : Nat, get_args_key (n + 1) v = Option.some v) := by
  constructor
  · intro a b h n
    exact get_args_key_congr n a b h
  · intro v hv n
    simp [get_args_key, hv]

/-- Witness for C3 at concrete inputs: a nested list and the
correspondingly nested tuple derive equal keys, and a scalar passes
through unchanged. -/
theorem C3_key_derivation_structural_witness :
    structEq (PyVal.list [PyVal.int 1, PyVal.list [PyVal.int 2, PyVal.pynone]])
      (PyVal.tuple [PyVal.int 1, PyVal.tuple [PyVal.int 2, PyVal.pynone]]) = true ∧
    get_args_key 4 (PyVal.list [PyVal.int 1, PyVal.list [PyVal.int 2, PyVal.pynone]]) =
      get_args_key 4 (PyVal.tuple [PyVal.int 1, PyVal.tuple [PyVal.int 2, PyVal.pynone]]) ∧
    iterElems (PyVal.int 5) = Option.none ∧
    get_args_key 1 (PyVal.int 5) = Option.some (PyVal.int 5) :=
  ⟨rfl, C3_key_derivation_structural.1 _ _ (by rfl) 4, rfl,
    C3_key_derivation_structural.2 (PyVal.int 5) rfl 0⟩

/-- **C10**: `get_args_key` terminates for every argument structure built
from non-iterable scalars, lists and tuples (fuel `psize v` suffices), but
for any argument that is or contains a non-empty string it never terminates:
no recursion depth ever suffices, because a one-character string iterates to
itself. -/
theorem C10_get_args_key_termination :
    (∀ v : PyVal, stringFree v = true →
      (get_args_key (psize v) v).isSome = true) ∧
    (∀ v : PyVal, hasNonemptyStr v = true →
      ∀ n : Nat, get_args_key n v = Option.none) := by
  constructor
  · intro v hv
    exact get_args_key_terminates (psize v) v hv (le_refl _)
  · intro v hv n
    exact get_args_key_diverges n v hv

/-- Witness for C10 at concrete inputs: a string-free nested value
terminates, a one-character string never does. -/
theorem C10_get_args_key_termination_witness :
    stringFree (PyVal.list [PyVal.int 1, PyVal.tuple [PyVal.bool true]]) = true ∧
    (get_args_key (psize (PyVal.list [PyVal.int 1, PyVal.tuple [PyVal.bool true]]))
      (PyVal.list [PyVal.int 1, PyVal.tuple [PyVal.bool true]])).isSome = true ∧
    hasNonemptyStr (PyVal.str ['a']) = true ∧
    get_args_key 9 (PyVal.str ['a']) = Option.none :=
  ⟨rfl, C10_get_args_key_termination.1 _ rfl, rfl,
    C10_get_args_key_termination.2 (PyVal.str ['a']) rfl 9⟩

/-! ## The cache engine: `Cache._get` (src/funcache/_cache.py, lines 124-164)

Per-function state of the engine in one process, for a single wrapped
function: its sub-store `_cache[func_key]` (an association map from argument
key to result), the argument keys of this function present in
`_running_queries`, and the per-process activation flag `_is_active`.
Argument values `A`, argument keys `K` and results `R` are abstract; `key`
embeds `get_args_key` and `f` the wrapped `original_function`. -/

structure EngineState (K R : Type) where
  store : List (K × R)
  runningQueries : List K
  isActive : Bool

/-- Association-list lookup, modelling Python `dict` access (keys are
unique because entries are only added when absent). -/
def alookup {K V : Type} [DecidableEq K] : List (K × V) → K → Option V
  | [], _ => Option.none
  | (k, v) :: rest, k' => if k' = k then Option.some v else alookup rest k'

/-- What one call to the wrapper observed: the argument passed, the result
returned, whether `original_function` was invoked, and whether the
`post_get` hook ran. -/
structure CallRecord (A R : Type) where
  arg : A
  result : R
  invoked : Bool
  ranPostGet : Bool

/-- `Cache._get` executed by a single process with no concurrent callers:

* if `_is_active` is false, call `original_function` directly (no store or
  in-flight interaction, no `post_get`);
* spin `while (func_key, args_key) in _running_queries` — in a
  single-process sequential execution a non-empty in-flight marker never
  clears, so the call blocks forever (`Option.none`);
* on a store miss, append the in-flight marker, compute, store the result,
  remove the marker (net in-flight state unchanged), run `post_get`;
* on a hit, return the stored result and run `post_get`. -/
def cacheGet {A K R : Type} [DecidableEq K] (key : A → K) (f : A → R)
    (s : EngineState K R) (a : A) :
    Option (CallRecord A R × EngineState K R) :=
  if s.isActive = false then
    Option.some (⟨a, f a, true, false⟩, s)
  else if key a ∈ s.runningQueries then
    Option.none
  else
    match alookup s.store (key a) with
    | Option.some r => Option.some (⟨a, r, false, true⟩, s)
    | Option.none =>
      Option.some (⟨a, f a, true, true⟩,
        { s with store := (key a, f a) :: s.store })

/-- A sequence of sequential calls to the wrapper, producing the log of
call records; `Option.none` if some call blocks forever. -/
def runCalls {A K R : Type} [DecidableEq K] (key : A → K) (f : A → R) :
    List A → EngineState K R → Option (List (CallRecord A R) × EngineState K R)
  | [], s => Option.some ([], s)
  | a :: rest, s =>
    match cacheGet key f s a with
    | Option.none => Option.none
    | Option.some (c, s') =>
      match runCalls key f rest s' with
      | Option.none => Option.none
      | Option.some (log, sf) => Option.some (c :: log, sf)

/-- The engine state right after `Cache.init` created the empty sub-store:
empty store, no in-flight queries, active by default. -/
def EngineState.init (K R : Type) : EngineState K R := ⟨[], [], true⟩

/-- A state with no pending in-flight queries and the engine active. -/
def quiescent {K R : Type} (s : EngineState K R) : Prop :=
  s.runningQueries = [] ∧ s.isActive = true

/-- Master induction for sequential call sequences from a quiescent state:
every call completes, the final state is quiescent, stored entries persist,
every logged result is the entry stored under its argument's key at the
end, and the underlying function is invoked exactly zero times for keys
already stored and at most once per key overall. -/
theorem runCalls_spec {A K R : Type} [DecidableEq K] (key : A → K) (f : A → R) :
    ∀ (calls : List A) (s : EngineState K R), quiescent s →
    ∃ log sf, runCalls key f calls s = Option.some (log, sf) ∧ quiescent sf ∧
      (∀ k v, alookup s.store k = Option.some v → alookup sf.store k = Option.some v) ∧
      (∀ c ∈ log, alookup sf.store (key c.arg) = Option.some c.result) ∧
      (∀ k : K, alookup s.store k ≠ Option.none →
        log.countP (fun c => decide (key c.arg = k) && c.invoked) = 0) ∧
      (∀ k : K, log.countP (fun c => decide (key c.arg = k) && c.invoked) ≤ 1) := by
  intro calls
  induction calls with
  | nil =>
    intro s hs
    exact ⟨[], s, rfl, hs, fun k v h => h, by simp, fun k _ => by simp, fun k => by simp⟩
  | cons a rest ih =>
    intro s hs
    obtain ⟨store, rq, ia⟩ := s
    obtain ⟨hrq, hia⟩ := hs
    simp only at hrq hia
    subst hrq
    subst hia
    cases hlook : alookup store (key a) with
    | some r =>
      obtain ⟨log, sf, hrun, hqf, hmono, hres, hzero, hone⟩ :=
        ih ⟨store, [], true⟩ ⟨rfl, rfl⟩
      refine ⟨⟨a, r, false, true⟩ :: log, sf, ?_, hqf, hmono, ?_, ?_, ?_⟩
      · simp [runCalls, cacheGet, hlook, hrun]
      · intro c hc
        rcases List.mem_cons.mp hc with rfl | hc
        · exact hmono _ _ hlook
        · exact hres c hc
      · intro k hk
        simpa [List.countP_cons] using hzero k hk
      · intro k
        simpa [List.countP_cons] using hone k
    | none =>
      obtain ⟨log, sf, hrun, hqf, hmono, hres, hzero, hone⟩ :=
        ih ⟨(key a, f a) :: store, [], true⟩ ⟨rfl, rfl⟩
      refine ⟨⟨a, f a, true, true⟩ :: log, sf, ?_, hqf, ?_, ?_, ?_, ?_⟩
      · simp [runCalls, cacheGet, hlook, hrun]
      · intro k v hkv
        apply hmono
        have hne : k ≠ key a := by
          intro h
          rw [h, hlook] at hkv
          cases hkv
        simp only [alookup]
        rw [if_neg hne]
        exact hkv
      · intro c hc
        rcases List.mem_cons.mp hc with rfl | hc
        · apply hmono
          simp [alookup]
        · exact hres c hc
      · intro k hk
        have hne : key a ≠ k := by
          intro h
          rw [← h] at hk
          exact hk hlook
        have hrest : log.countP (fun c => decide (key c.arg = k) && c.invoked) = 0 := by
          apply hzero k
          simp only [alookup]
          rw [if_neg fun h => hne h.symm]
          exact hk
        simp [List.countP_cons, hrest, hne]
      · intro k
        by_cases hk : k = key a
        · have hrest : log.countP (fun c => decide (key c.arg = k) && c.invoked) = 0 := by
            apply hzero k
            simp only [alookup]
            rw [if_pos hk]
            simp
          rw [hk] at hrest
          simp [List.countP_cons, hrest, hk]
        · have h1 := hone k
          have hne : key a ≠ k := fun h => hk h.symm
          simpa [List.countP_cons, hne] using h1

/-- **C1**: For every pure function `f` wrapped by the cache, with the
engine active in a single process, every sequence of calls to the wrapped
function with equal argument tuples returns the same result as the first
call, and the underlying function `f` is invoked at most once per distinct
argument tuple over the lifetime of the cache. -/
theorem C1_memoization {A K R : Type} [DecidableEq A] [DecidableEq K]
    (key : A → K) (f : A → R) (calls : List A) :
    ∃ log sf, runCalls key f calls (EngineState.init K R) = Option.some (log, sf) ∧
      (∀ c1 ∈ log, ∀ c2 ∈ log, c1.arg = c2.arg → c1.result = c2.result) ∧
      (∀ a : A, log.countP (fun c => decide (c.arg = a) && c.invoked) ≤ 1) := by
  obtain ⟨log, sf, hrun, _, _, hres, _, hone⟩ :=
    runCalls_spec key f calls (EngineState.init K R) ⟨rfl, rfl⟩
  refine ⟨log, sf, hrun, ?_, ?_⟩
  · intro c1 h1 c2 h2 harg
    have e1 := hres c1 h1
    have e2 := hres c2 h2
    rw [harg, e2] at e1
    exact (Option.some.inj e1).symm
  · intro a
    calc log.countP (fun c => decide (c.arg = a) && c.invoked)
        ≤ log.countP (fun c => decide (key c.arg = key a) && c.invoked) := by
          apply List.countP_mono_left
          intro c _ h
          simp only [Bool.and_eq_true, decide_eq_true_eq] at h ⊢
          exact ⟨by rw [h.1], h.2⟩
      _ ≤ 1 := hone (key a)

/-- Witness for C1 at a concrete input: wrapping `n ↦ n + 1` and calling it
with arguments `[0, 0, 1]`. -/
theorem C1_memoization_witness :
    ∃ log sf, runCalls (fun n => n) (fun n : Nat => n + 1) [0, 0, 1]
        (EngineState.init Nat Nat) = Option.some (log, sf) ∧
      (∀ c1 ∈ log, ∀ c2 ∈ log, c1.arg = c2.arg → c1.result = c2.result) ∧
      (∀ a : Nat, log.countP (fun c => decide (c.arg = a) && c.invoked) ≤ 1) :=
  C1_memoization (fun n => n) (fun n : Nat => n + 1) [0, 0, 1]

/-- **C7**: While the engine is deactivated in the calling process, every
call invokes the underlying function directly and returns its result, the
store and in-flight set are untouched (the final state is the initial
state, and no `post_get` hook runs), and every one of the `n` calls
re-invokes the underlying function. -/
theorem C7_deactivated_bypass {A K R : Type} [DecidableEq K] (key : A → K) (f : A → R)
    (s : EngineState K R) (hs : s.isActive = false) (calls : List A) :
    runCalls key f calls s =
      Option.some (calls.map fun a => ⟨a, f a, true, false⟩, s) ∧
    (calls.map fun a => (⟨a, f a, true, false⟩ : CallRecord A R)).countP
        (fun c => c.invoked) = calls.length := by
  constructor
  · induction calls with
    | nil => rfl
    | cons a rest ih => simp [runCalls, cacheGet, hs, ih]
  · induction calls with
    | nil => rfl
    | cons a rest ih => simp [List.countP_cons, ih]

/-- Witness for C7 at a concrete input: a deactivated engine called twice
with the same argument computes directly both times and mutates nothing. -/
theorem C7_deactivated_bypass_witness :
    (⟨[], [], false⟩ : EngineState Nat Nat).isActive = false ∧
    (runCalls (fun n => n) (fun n : Nat => n * n) [5, 5] ⟨[], [], false⟩ =
      Option.some ([5, 5].map fun a => ⟨a, a * a, true, false⟩, ⟨[], [], false⟩) ∧
    ([5, 5].map fun a => (⟨a, a * a, true, false⟩ : CallRecord Nat Nat)).countP
        (fun c => c.invoked) = [5, 5].length) :=
  ⟨rfl, C7_deactivated_bypass (fun n => n) (fun n : Nat => n * n) ⟨[], [], false⟩ rfl [5, 5]⟩

/-! ## Function registration: `Cache.cache_function` (src/funcache/_cache.py,
lines 83-93) and the decorator `Cache.__call__` (lines 38-54) -/

/-- A Python callable together with its `__qualname__`. -/
structure PyFunc (A R : Type) where
  qualname : String
  fn : A → R

/-- `Cache.cache_function`: register `func` under its qualified name in the
`_cached_functions` dictionary and return the key, or return `None` (the
rejection sentinel) when the key is already occupied, leaving the registry
untouched:

```
if func.__qualname__ not in cls._cached_functions:
    cls._cached_functions[func.__qualname__] = func
    return func.__qualname__
return None
``` -/
def cache_function {A R : Type} (registry : List (String × PyFunc A R))
    (func : PyFunc A R) : Option String × List (String × PyFunc A R) :=
  if (alookup registry func.qualname).isSome then
    (Option.none, registry)
  else
    (Option.some func.qualname, registry ++ [(func.qualname, func)])

/-- What the decorator `Cache.__call__` hands back to the caller. -/
inductive WrapResult (A R : Type) where
  | wrapper : String → PyFunc A R → WrapResult A R
  | original : PyFunc A R → WrapResult A R

/-- `Cache.__call__`: register the function; if `cache_function` returned
`None`, hand back the original unwrapped callable, otherwise the caching
wrapper closed over the assigned function key. -/
def callDecorator {A R : Type} (registry : List (String × PyFunc A R))
    (func : PyFunc A R) : WrapResult A R × List (String × PyFunc A R) :=
  match cache_function registry func with
  | (Option.none, reg) => (WrapResult.original func, reg)
  | (Option.some k, reg) => (WrapResult.wrapper k func, reg)

/-- **C8**: For every function whose qualified-name key is already
registered, a second registration attempt returns the rejection sentinel
(`None`) and leaves the registry — in particular the existing registration —
unchanged, and the decorator then returns the original unwrapped callable
instead of a wrapper. -/
theorem C8_duplicate_registration {A R : Type} (registry : List (String × PyFunc A R))
    (func g : PyFunc A R) (h : alookup registry func.qualname = Option.some g) :
    cache_function registry func = (Option.none, registry) ∧
    callDecorator registry func = (WrapResult.original func, registry) ∧
    alookup (cache_function registry func).2 func.qualname = Option.some g := by
  have hs : (alookup registry func.qualname).isSome = true := by
    rw [h]
    rfl
  refine ⟨?_, ?_, ?_⟩
  · simp [cache_function, hs]
  · simp [callDecorator, cache_function, hs]
  · simp [cache_function, hs, h]

/-- Witness for C8 at a concrete input: re-registering key `"f"`. -/
theorem C8_duplicate_registration_witness :
    cache_function [("f", (⟨"f", fun n : Nat => n⟩ : PyFunc Nat Nat))]
        (⟨"f", fun n : Nat => n + 1⟩ : PyFunc Nat Nat) =
      (Option.none, [("f", (⟨"f", fun n : Nat => n⟩ : PyFunc Nat Nat))]) ∧
    callDecorator [("f", (⟨"f", fun n : Nat => n⟩ : PyFunc Nat Nat))]
        (⟨"f", fun n : Nat => n + 1⟩ : PyFunc Nat Nat) =
      (WrapResult.original (⟨"f", fun n : Nat => n + 1⟩ : PyFunc Nat Nat),
        [("f", (⟨"f", fun n : Nat => n⟩ : PyFunc Nat Nat))]) ∧
    alookup (cache_function [("f", (⟨"f", fun n : Nat => n⟩ : PyFunc Nat Nat))]
        (⟨"f", fun n : Nat => n + 1⟩ : PyFunc Nat Nat)).2 "f" =
      Option.some (⟨"f", fun n : Nat => n⟩ : PyFunc Nat Nat) :=
  C8_duplicate_registration _ _ _ rfl

/-! ## Concurrency: interleaved executions of `Cache._get` on one
(function, args) pair (src/funcache/_cache.py, lines 139-159)

Several callers run `Cache._get` concurrently for the same function and the
same argument key.  Shared state: the sub-store entry for that key, and the
multiplicity of the `(func_key, args_key)` marker in `_running_queries`.
Each caller is at one of the statements of `_get`, executed atomically:

* `spin`        — `while (func_key, args_key) in self._running_queries` (139)
* `checkStore`  — `if args_key not in self._cache[func_key]` (142)
* `appendRun`   — `self._running_queries.append(...)` (144)
* `compute`     — `result = self.original_function(*args)` (146)
* `storeResult` — store the result under the key (152-153/158)
* `removeRun`   — `self._running_queries.remove(...)` (159)
* `done`        — `return result` (164)

All callers compute the same pure value `v`. -/

inductive GetPC where
  | spin
  | checkStore
  | appendRun
  | compute
  | storeResult
  | removeRun
  | done
  deriving DecidableEq

/-- One caller: its program counter and its local `result` variable. -/
structure Caller where
  pc : GetPC
  res : Option Nat
  deriving DecidableEq

/-- The shared state plus all callers: the sub-store entry for the key, the
in-flight marker multiplicity, the callers, and how many times the body of
`original_function` has executed. -/
structure SharedConfig where
  store : Option Nat
  running : Nat
  callers : List Caller
  bodyRuns : Nat
  deriving DecidableEq

/-- One atomic statement of `Cache._get` executed by one caller. -/
def stepCaller (v : Nat) (cfg : SharedConfig) (c : Caller) : Caller × SharedConfig :=
  match c.pc with
  | GetPC.spin =>
    if cfg.running > 0 then (c, cfg)
    else ({ c with pc := GetPC.checkStore }, cfg)
  | GetPC.checkStore =>
    match cfg.store with
    | Option.some r => ({ c with pc := GetPC.done, res := Option.some r }, cfg)
    | Option.none => ({ c with pc := GetPC.appendRun }, cfg)
  | GetPC.appendRun =>
    ({ c with pc := GetPC.compute }, { cfg with running := cfg.running + 1 })
  | GetPC.compute =>
    ({ c with pc := GetPC.storeResult, res := Option.some v },
      { cfg with bodyRuns := cfg.bodyRuns + 1 })
  | GetPC.storeResult =>
    ({ c with pc := GetPC.removeRun }, { cfg with store := c.res })
  | GetPC.removeRun =>
    ({ c with pc := GetPC.done }, { cfg with running := cfg.running - 1 })
  | GetPC.done => (c, cfg)

/-- Let caller `i` execute its next atomic statement (no-op when `i` is out
of range). -/
def schedStep (v : Nat) (cfg : SharedConfig) (i : Nat) : SharedConfig :=
  match cfg.callers[i]? with
  | Option.none => cfg
  | Option.some c =>
    let p := stepCaller v cfg c
    { p.2 with callers := p.2.callers.set i p.1 }

/-- Run a whole schedule: the list gives which caller steps next. -/
def runSched (v : Nat) (sched : List Nat) (cfg : SharedConfig) : SharedConfig :=
  sched.foldl (schedStep v) cfg

/-- Two callers about to enter the in-flight check, empty store, nothing in
flight. -/
def initTwoCallers : SharedConfig :=
  ⟨Option.none, 0, [⟨GetPC.spin, Option.none⟩, ⟨GetPC.spin, Option.none⟩], 0⟩

/-- Caller-local part of the agreement invariant: the local result is
either unset or the computed value, and from `storeResult` on it is the
computed value. -/
def goodCaller (v : Nat) (c : Caller) : Prop :=
  (c.res = Option.none ∨ c.res = Option.some v) ∧
  ((c.pc = GetPC.storeResult ∨ c.pc = GetPC.removeRun ∨ c.pc = GetPC.done) →
    c.res = Option.some v)

/-- Shared part of the agreement invariant: the store only ever holds the
computed value. -/
def goodConfig (v : Nat) (cfg : SharedConfig) : Prop :=
  (cfg.store = Option.none ∨ cfg.store = Option.some v) ∧
  ∀ c ∈ cfg.callers, goodCaller v c

/-- One caller step preserves the agreement invariant and does not touch
the caller list. -/
theorem stepCaller_good (v : Nat) (cfg : SharedConfig) (c : Caller)
    (hst : cfg.store = Option.none ∨ cfg.store = Option.some v)
    (hc : goodCaller v c) :
    goodCaller v (stepCaller v cfg c).1 ∧
    ((stepCaller v cfg c).2.store = Option.none ∨
      (stepCaller v cfg c).2.store = Option.some v) ∧
    (stepCaller v cfg c).2.callers = cfg.callers := by
  obtain ⟨hres, hpcres⟩ := hc
  cases hpc : c.pc with
  | spin =>
    by_cases hr : cfg.running > 0 <;>
      simp [stepCaller, hpc, hr, goodCaller, hst, hres]
  | checkStore =>
    cases hsv : cfg.store with
    | none => simp [stepCaller, hpc, hsv, goodCaller, hst, hres]
    | some r =>
      have : r = v := by
        rcases hst with h | h
        · rw [hsv] at h; cases h
        · rw [hsv] at h; exact Option.some.inj h
      subst this
      simp [stepCaller, hpc, hsv, goodCaller, hst]
  | appendRun => simp [stepCaller, hpc, goodCaller, hst, hres]
  | compute => simp [stepCaller, hpc, goodCaller, hst]
  | storeResult =>
    have hv : c.res = Option.some v := hpcres (Or.inl hpc)
    simp [stepCaller, hpc, goodCaller, hv]
  | removeRun =>
    have hv : c.res = Option.some v := hpcres (Or.inr (Or.inl hpc))
    simp [stepCaller, hpc, goodCaller, hst, hv]
  | done =>
    have hv : c.res = Option.some v := hpcres (Or.inr (Or.inr hpc))
    simp [stepCaller, hpc, goodCaller, hst, hv, hpc]

/-- A scheduled step preserves the agreement invariant. -/
theorem schedStep_good (v : Nat) (cfg : SharedConfig) (i : Nat)
    (h : goodConfig v cfg) : goodConfig v (schedStep v cfg i) := by
  obtain ⟨hst, hcs⟩ := h
  cases hi : cfg.callers[i]? with
  | none => simpa [schedStep, hi] using ⟨hst, hcs⟩
  | some c =>
    have hcmem : c ∈ cfg.callers := by
      have := List.getElem?_eq_some.mp hi
      obtain ⟨hlt, hget⟩ := this
      exact hget ▸ List.getElem_mem hlt
    obtain ⟨hgood, hst', hsame⟩ := stepCaller_good v cfg c hst (hcs c hcmem)
    refine ⟨by simpa [schedStep, hi] using hst', ?_⟩
    intro c' hc'
    simp only [schedStep, hi] at hc'
    rcases List.mem_or_eq_of_mem_set hc' with hmem | rfl
    · rw [hsame] at hmem
      exact hcs c' hmem
    · exact hgood

/-- The agreement invariant holds after any schedule. -/
theorem runSched_good (v : Nat) : ∀ (sched : List Nat) (cfg : SharedConfig),
    goodConfig v cfg → goodConfig v (runSched v sched cfg) := by
  intro sched
  induction sched with
  | nil => intro cfg h; exact h
  | cons i rest ih =>
    intro cfg h
    exact ih (schedStep v cfg i) (schedStep_good v cfg i h)

/-- Under every interleaving, every caller of the same (function, args)
pair that completes `Cache._get` returns the same (pure) computed value:
the "all N callers receive the same result" half of the contract holds. -/
theorem runSched_done_agree (v : Nat) (sched : List Nat) (cfg : SharedConfig)
    (h : goodConfig v cfg) :
    ∀ c ∈ (runSched v sched cfg).callers, c.pc = GetPC.done →
      c.res = Option.some v := by
  intro c hc hpc
  exact ((runSched_good v sched cfg h).2 c hc).2 (Or.inr (Or.inr hpc))

/-- **C2** fails on the code: the InFlightSet check (line 139) and the later
insertion (line 144) are not atomic.  In the interleaving where both
callers pass the in-flight check and the store-miss check before either
inserts its marker, the underlying computation body executes twice — not
exactly once as claimed — although both callers do receive the same
result. -/
theorem C2_inflight_race_eval :
    (runSched 7 [0, 0, 1, 1, 0, 0, 0, 0, 1, 1, 1, 1] initTwoCallers).bodyRuns = 2 ∧
    (runSched 7 [0, 0, 1, 1, 0, 0, 0, 0, 1, 1, 1, 1] initTwoCallers).callers =
      [⟨GetPC.done, Option.some 7⟩, ⟨GetPC.done, Option.some 7⟩] ∧
    (runSched 7 [0, 0, 1, 1, 0, 0, 0, 0, 1, 1, 1, 1] initTwoCallers).store =
      Option.some 7 :=
  ⟨rfl, rfl, rfl⟩

/-! ## `MemoryCache.post_get` (src/funcache/_memory_cache.py, lines 42-68)

Per-function state of the bounded in-memory cache: the sub-store
`_cache[func_key]`, the access order `_accesses[func_key]` (least recently
used first), and this function's argument keys in `_running_queries`. -/

structure MemState (K R : Type) where
  store : List (K × R)
  accesses : List K
  runningQueries : List K

/-- Deletion from the sub-store (`del cache[to_delete]`); keys are unique,
so removing the first matching entry matches `dict` deletion. -/
def eraseKey {K V : Type} [DecidableEq K] : List (K × V) → K → List (K × V)
  | [], _ => []
  | (k, v) :: rest, k' => if k' = k then rest else (k, v) :: eraseKey rest k'

/-- The `else` (non-multiprocessing) branch of `MemoryCache.post_get`
(lines 65-67):

```
if len(self._accesses[self.func_key]) > self.cache_size:
    del self._cache[self.func_key][self._accesses[self.func_key].pop(0)]
```

Note that this branch never records the accessed key: `args_key` is not
consulted at all. -/
def post_get_single {K R : Type} [DecidableEq K] (cache_size : Nat)
    (s : MemState K R) : MemState K R :=
  if s.accesses.length > cache_size then
    match s.accesses with
    | [] => s
    | k0 :: rest => { s with accesses := rest, store := eraseKey s.store k0 }
  else s

/-- The multiprocessing branch of `MemoryCache.post_get` (lines 50-64):
move `args_key` to the most-recently-used tail position (remove if
present, then append), then, if the capacity is exceeded, evict the head
key — unless it is currently in flight, in which case nothing is evicted
on this access. -/
def post_get_multi {K R : Type} [DecidableEq K] (cache_size : Nat)
    (s : MemState K R) (args_key : K) : MemState K R :=
  let accesses :=
    (if args_key ∈ s.accesses then s.accesses.erase args_key else s.accesses) ++ [args_key]
  if accesses.length > cache_size then
    match accesses with
    | [] => { s with accesses := accesses }
    | toDelete :: rest =>
      if toDelete ∈ s.runningQueries then { s with accesses := accesses }
      else { s with accesses := rest, store := eraseKey s.store toDelete }
  else { s with accesses := accesses }

/-- One sequential call of a `MemoryCache`-wrapped function in
single-process (non-multiprocessing) mode with the engine active:
`Cache._get` (miss → compute and store, hit → retrieve) followed by the
non-multiprocessing branch of `MemoryCache.post_get`. -/
def memGetSingle {A K R : Type} [DecidableEq K] (cache_size : Nat) (key : A → K)
    (f : A → R) (s : MemState K R) (a : A) : Option (R × MemState K R) :=
  if key a ∈ s.runningQueries then Option.none
  else
    match alookup s.store (key a) with
    | Option.some r => Option.some (r, post_get_single cache_size s)
    | Option.none =>
      Option.some (f a,
        post_get_single cache_size { s with store := (key a, f a) :: s.store })

/-- A sequence of sequential calls in single-process mode. -/
def runMemSingle {A K R : Type} [DecidableEq K] (cache_size : Nat) (key : A → K)
    (f : A → R) : List A → MemState K R → Option (MemState K R)
  | [], s => Option.some s
  | a :: rest, s =>
    match memGetSingle cache_size key f s a with
    | Option.none => Option.none
    | Option.some p => runMemSingle cache_size key f rest p.2

/-- In the multiprocessing branch the access order really is bounded: from
a state within capacity and no in-flight keys, it stays within capacity. -/
theorem post_get_multi_accessesBound {K R : Type} [DecidableEq K] (cache_size : Nat)
    (s : MemState K R) (k : K) (hrun : s.runningQueries = [])
    (hlen : s.accesses.length ≤ cache_size) :
    (post_get_multi cache_size s k).accesses.length ≤ cache_size := by
  obtain ⟨store, acc, rq⟩ := s
  simp only at hrun hlen
  subst hrun
  obtain ⟨toDelete, rest, hc⟩ :
      ∃ toDelete rest, (if k ∈ acc then acc.erase k else acc) ++ [k] = toDelete :: rest := by
    cases h : (if k ∈ acc then acc.erase k else acc) ++ [k] with
    | nil => exact absurd h (by simp)
    | cons a l => exact ⟨a, l, rfl⟩
  have hlen1 : rest.length + 1 ≤ cache_size + 1 := by
    have h2 : ((if k ∈ acc then acc.erase k else acc) ++ [k]).length = rest.length + 1 := by
      rw [hc]
      rfl
    by_cases hmem : k ∈ acc
    · rw [if_pos hmem] at h2
      have h3 := List.length_erase_of_mem hmem
      simp only [List.length_append, List.length_cons, List.length_nil] at h2
      omega
    · rw [if_neg hmem] at h2
      simp only [List.length_append, List.length_cons, List.length_nil] at h2
      omega
  by_cases hov : cache_size < rest.length + 1
  · simp [post_get_multi, hc, hov]
    omega
  · simp [post_get_multi, hc, hov]
    omega

/-- In the multiprocessing branch the accessed key really is moved to the
most-recently-used tail position: the new access order is the old one with
the key removed-if-present and then appended, possibly with its head
evicted. -/
theorem post_get_multi_mru {K R : Type} [DecidableEq K] (cache_size : Nat)
    (s : MemState K R) (k : K) :
    (post_get_multi cache_size s k).accesses =
        (if k ∈ s.accesses then s.accesses.erase k else s.accesses) ++ [k] ∨
      (post_get_multi cache_size s k).accesses =
        ((if k ∈ s.accesses then s.accesses.erase k else s.accesses) ++ [k]).tail := by
  obtain ⟨store, acc, rq⟩ := s
  simp only
  obtain ⟨toDelete, rest, hc⟩ :
      ∃ toDelete rest, (if k ∈ acc then acc.erase k else acc) ++ [k] = toDelete :: rest := by
    cases h : (if k ∈ acc then acc.erase k else acc) ++ [k] with
    | nil => exact absurd h (by simp)
    | cons a l => exact ⟨a, l, rfl⟩
  by_cases hov : cache_size < rest.length + 1
  · by_cases hrun : toDelete ∈ rq
    · left
      simp [post_get_multi, hc, hov, hrun]
    · right
      simp [post_get_multi, hc, hov, hrun]
  · left
    simp [post_get_multi, hc, hov]

/-- **C4** fails on the code in single-process mode: with capacity 1,
accessing the two distinct keys 1 and 2 leaves the sub-store with 2
entries and an empty access order — the non-multiprocessing branch of
`MemoryCache.post_get` never records accesses, so no eviction ever fires
and the capacity bound is violated permanently, not transiently. -/
theorem C4_capacity_violation_eval :
    runMemSingle 1 (fun n => n) (fun n : Nat => n) [1, 2] ⟨[], [], []⟩ =
      Option.some ⟨[(2, 2), (1, 1)], [], []⟩ ∧
    (([(2, 2), (1, 1)] : List (Nat × Nat)).length > 1) :=
  ⟨rfl, by simp⟩

/-- **C5** fails on the code in single-process mode: after one successful
fresh computation for key 3, the access order is still empty — the
accessed key was not moved to the most-recently-used position (the
non-multiprocessing branch of `MemoryCache.post_get` never removes nor
appends it). -/
theorem C5_no_mru_update_eval :
    memGetSingle 1000 (fun n => n) (fun n : Nat => n * n) ⟨[], [], []⟩ 3 =
      Option.some (9, ⟨[(3, 9)], [], []⟩) :=
  rfl

/-! ## `FileCache.save_files` (src/funcache/_file_cache.py, lines 115-140)

The flush is modelled per function.  The on-disk file is either missing
(`open` raises `FileNotFoundError`, which is caught), malformed
(`pickle.load` raises, which is *not* caught), or holds a successfully
deserialized payload: a mapping, `None`, or some other non-mapping value.
The result of a flush is the new in-memory sub-store together with the
payload written back to the file, or an error when an uncaught exception
propagates out of `save_files`. -/

/-- A successfully deserialized pickle payload. -/
inductive Pickled (K V : Type) where
  | dict : List (K × V) → Pickled K V
  | pynone : Pickled K V
  | other : Pickled K V

/-- The on-disk cache file as `save_files` finds it. -/
inductive FileState (K V : Type) where
  | missing : FileState K V
  | malformed : FileState K V
  | content : Pickled K V → FileState K V

/-- The merge loop of `save_files` (lines 125-134): for every key of the
on-disk mapping, add its entry to the in-memory sub-store when the key is
absent there (under the per-function lock in multi-process mode, which is
sequentially equivalent to the direct update). -/
def mergeAbsent {K V : Type} [DecidableEq K] : List (K × V) → List (K × V) → List (K × V)
  | mem, [] => mem
  | mem, (k, v) :: rest =>
    mergeAbsent (if (alookup mem k).isSome then mem else mem ++ [(k, v)]) rest

/-- The body of `FileCache.save_files` for one cached function: re-read the
file; a missing file skips the merge (`except FileNotFoundError: pass`), a
payload failing deserialization raises out of `save_files`
(`pickle.load` errors are not caught), a non-mapping payload is rejected by
`isinstance(changed, dict)` and skips the merge; finally the in-memory
sub-store is serialized and overwrites the file. -/
def save_files {K V : Type} [DecidableEq K] (file : FileState K V)
    (mem : List (K × V)) : Except Unit (List (K × V) × Pickled K V) :=
  match file with
  | FileState.missing => Except.ok (mem, Pickled.dict mem)
  | FileState.malformed => Except.error ()
  | FileState.content (Pickled.dict changed) =>
    Except.ok (mergeAbsent mem changed, Pickled.dict (mergeAbsent mem changed))
  | FileState.content Pickled.pynone => Except.ok (mem, Pickled.dict mem)
  | FileState.content Pickled.other => Except.ok (mem, Pickled.dict mem)

/-- A key found on the left of an append is found in the append. -/
theorem alookup_append_left {K V : Type} [DecidableEq K] :
    ∀ (l1 l2 : List (K × V)) (k : K) (v : V), alookup l1 k = Option.some v →
      alookup (l1 ++ l2) k = Option.some v := by
  intro l1
  induction l1 with
  | nil => intro l2 k v h; cases h
  | cons p rest ih =>
    obtain ⟨k0, v0⟩ := p
    intro l2 k v h
    by_cases hk : k = k0
    · simp only [alookup] at h ⊢
      rw [if_pos hk] at h ⊢
      exact h
    · simp only [alookup] at h
      rw [if_neg hk] at h
      rw [List.cons_append]
      simp only [alookup]
      rw [if_neg hk]
      exact ih l2 k v h

/-- A key absent from the left of an append is looked up on the right. -/
theorem alookup_append_right {K V : Type} [DecidableEq K] :
    ∀ (l1 l2 : List (K × V)) (k : K), alookup l1 k = Option.none →
      alookup (l1 ++ l2) k = alookup l2 k := by
  intro l1
  induction l1 with
  | nil => intro l2 k _; rfl
  | cons p rest ih =>
    obtain ⟨k0, v0⟩ := p
    intro l2 k h
    by_cases hk : k = k0
    · simp only [alookup] at h
      rw [if_pos hk] at h
      cases h
    · simp only [alookup] at h
      rw [if_neg hk] at h
      rw [List.cons_append]
      simp only [alookup]
      rw [if_neg hk]
      exact ih l2 k h

/-- The merge never changes an entry already present in memory: the
in-memory value wins on shared keys. -/
theorem mergeAbsent_lookup_present {K V : Type} [DecidableEq K] :
    ∀ (changed mem : List (K × V)) (k : K) (v : V), alookup mem k = Option.some v →
      alookup (mergeAbsent mem changed) k = Option.some v := by
  intro changed
  induction changed with
  | nil => intro mem k v h; exact h
  | cons p rest ih =>
    obtain ⟨k0, v0⟩ := p
    intro mem k v h
    rw [mergeAbsent]
    by_cases hmem : (alookup mem k0).isSome
    · rw [if_pos hmem]
      exact ih mem k v h
    · rw [if_neg hmem]
      exact ih _ k v (alookup_append_left mem [(k0, v0)] k v h)

/-- A key absent from memory ends up with its on-disk value (the first
on-disk occurrence, matching iteration order). -/
theorem mergeAbsent_lookup_absent {K V : Type} [DecidableEq K] :
    ∀ (changed mem : List (K × V)) (k : K), alookup mem k = Option.none →
      alookup (mergeAbsent mem changed) k = alookup changed k := by
  intro changed
  induction changed with
  | nil => intro mem k h; exact h
  | cons p rest ih =>
    obtain ⟨k0, v0⟩ := p
    intro mem k h
    rw [mergeAbsent]
    by_cases hk : k = k0
    · have hnone : ¬(alookup mem k0).isSome := by
        rw [← hk, h]
        simp
      rw [if_neg hnone]
      have hfound : alookup (mem ++ [(k0, v0)]) k = Option.some v0 := by
        rw [alookup_append_right mem [(k0, v0)] k h]
        simp only [alookup]
        rw [if_pos hk]
      simp only [alookup]
      rw [if_pos hk]
      exact mergeAbsent_lookup_present rest _ k v0 hfound
    · simp only [alookup]
      rw [if_neg hk]
      by_cases hmem : (alookup mem k0).isSome
      · rw [if_pos hmem]
        exact ih mem k h
      · rw [if_neg hmem]
        apply ih
        rw [alookup_append_right mem [(k0, v0)] k h]
        simp only [alookup]
        rw [if_neg hk]

/-- **C6**: For every flush of a function whose on-disk file holds mapping
`D` and whose in-memory sub-store holds `M`, after `save_files` the
in-memory sub-store equals `M` plus every entry of `D` whose key is absent
from `M` (`M`'s values win on shared keys), and the file holds exactly that
merged mapping serialized; when the file is missing at flush time, the
merge is skipped and the file is written with `M` unchanged. -/
theorem C6_flush_merge {K V : Type} [DecidableEq K] :
    (∀ (D M : List (K × V)),
      save_files (FileState.content (Pickled.dict D)) M =
        Except.ok (mergeAbsent M D, Pickled.dict (mergeAbsent M D)) ∧
      (∀ (k : K) (v : V), alookup M k = Option.some v →
        alookup (mergeAbsent M D) k = Option.some v) ∧
      (∀ k : K, alookup M k = Option.none →
        alookup (mergeAbsent M D) k = alookup D k)) ∧
    (∀ M : List (K × V),
      save_files FileState.missing M = Except.ok (M, Pickled.dict M)) := by
  refine ⟨fun D M => ⟨rfl, ?_, ?_⟩, fun M => rfl⟩
  · intro k v h
    exact mergeAbsent_lookup_present D M k v h
  · intro k h
    exact mergeAbsent_lookup_absent D M k h

/-- Witness for C6 at concrete inputs: disk `D = [(1, 10), (2, 20)]`,
memory `M = [(2, 99)]`; the shared key 2 keeps the in-memory value, the
key 1 is merged in from disk, and the merged mapping is what is written. -/
theorem C6_flush_merge_witness :
    save_files (FileState.content (Pickled.dict [(1, 10), (2, 20)]))
        ([(2, 99)] : List (Nat × Nat)) =
      Except.ok (mergeAbsent [(2, 99)] [(1, 10), (2, 20)],
        Pickled.dict (mergeAbsent [(2, 99)] [(1, 10), (2, 20)])) ∧
    alookup ([(2, 99)] : List (Nat × Nat)) 2 = Option.some 99 ∧
    alookup (mergeAbsent ([(2, 99)] : List (Nat × Nat)) [(1, 10), (2, 20)]) 2 =
      Option.some 99 ∧
    alookup ([(2, 99)] : List (Nat × Nat)) 1 = Option.none ∧
    alookup (mergeAbsent ([(2, 99)] : List (Nat × Nat)) [(1, 10), (2, 20)]) 1 =
      alookup [(1, 10), (2, 20)] 1 ∧
    save_files (FileState.missing : FileState Nat Nat) [(2, 99)] =
      Except.ok ([(2, 99)], Pickled.dict [(2, 99)]) :=
  ⟨(C6_flush_merge.1 [(1, 10), (2, 20)] [(2, 99)]).1, rfl,
    (C6_flush_merge.1 [(1, 10), (2, 20)] [(2, 99)]).2.1 2 99 rfl, rfl,
    (C6_flush_merge.1 [(1, 10), (2, 20)] [(2, 99)]).2.2 1 rfl,
    C6_flush_merge.2 [(2, 99)]⟩

/-- **C9 counterexample**: a malformed persisted payload does *not* merely
skip the merge — `pickle.load` raises an exception that `save_files` does
not catch (only `FileNotFoundError` is), so the flush crashes instead of
degrading to an overwrite. -/
theorem C9_malformed_crash_counterexample :
    save_files (FileState.malformed : FileState Nat Nat) [(1, 2)] =
      Except.error () :=
  rfl

/-- **C9 (amended)**: For every flush whose persisted payload deserializes
successfully but is not a mapping (`None` or any other non-`dict` value),
the merge step is skipped by the `isinstance(changed, dict)` type check,
the flush does not crash, and the file is overwritten with the current
in-memory sub-store; a payload whose deserialization itself fails instead
raises out of the flush. -/
theorem C9_nonmapping_payload_skips_merge {K V : Type} [DecidableEq K]
    (M : List (K × V)) :
    save_files (FileState.content Pickled.pynone) M = Except.ok (M, Pickled.dict M) ∧
    save_files (FileState.content Pickled.other) M = Except.ok (M, Pickled.dict M) ∧
    save_files FileState.malformed M = Except.error () :=
  ⟨rfl, rfl, rfl⟩

end FunCache
